import Mathlib

/-!
Shallow embedding of `src/optimizers.py` of the FWDL repository: the three
optimizer classes `SGDl1`, `SGDFWl1` and `SGDFWNuclear` built on
`torch.optim.Optimizer`.

Numbers are modelled as `ℚ` (the code works with exact elementwise tensor
arithmetic as far as the claims are concerned), tensors as `List ℚ` (vectors)
or `List (List ℚ)` (matrices), the per-group hyperparameter dictionary as an
association list over a finite key type, and Python `KeyError` / `assert`
failures as explicit error values.  A `step` call is modelled as a pure
function from the optimizer state to a new state plus an optional error; on an
error the groups processed before the failing lookup keep their mutated
values, exactly as the Python objects would after the exception propagates.

`LMO_l1` lives in `oracles.py`, which is not part of the source snapshot; it
is modelled from the spec (see its doc comment).  `LMO_nuclear` (top singular
triplet, also in the missing `oracles.py`) is taken as an explicit function
parameter of the nuclear step, and the theorems about that step hold for
every oracle.
-/

/-- Hyperparameter dictionary keys occurring in `optimizers.py`: `lr`, `l1`,
`momentum`, `dampening` (read by `SGDl1.step`), `kappa` (written by the
Frank-Wolfe constructors via `defaults = dict(kappa=kappa_l1)`) and
`kappa_l1` (read by the Frank-Wolfe `step` methods as `group['kappa_l1']`). -/
inductive Key
  | lr
  | l1
  | momentum
  | dampening
  | kappa
  | kappa_l1
  deriving DecidableEq

abbrev Hypers := List (Key × ℚ)

abbrev StateMap := List (ℕ × List ℚ)

/-- Python dict read `d[key]` returning `none` on a `KeyError`. -/
def dictGet : Hypers → Key → Option ℚ
  | [], _ => none
  | kv :: rest, key => if kv.1 = key then some kv.2 else dictGet rest key

/-- Python `dict.setdefault`, used by `Optimizer.add_param_group` to merge the
constructor `defaults` into each parameter group. -/
def dictSetdefault (d : Hypers) (key : Key) (v : ℚ) : Hypers :=
  if (dictGet d key).isSome then d else d ++ [(key, v)]

def dictSetdefaultAll : Hypers → Hypers → Hypers
  | d, [] => d
  | d, kv :: rest => dictSetdefaultAll (dictSetdefault d kv.1 kv.2) rest

/-- `self.state[p]` lookup, keyed by parameter identity. -/
def assocGet : StateMap → ℕ → Option (List ℚ)
  | [], _ => none
  | kv :: rest, i => if kv.1 = i then some kv.2 else assocGet rest i

def assocSet : StateMap → ℕ → List ℚ → StateMap
  | [], i, v => [(i, v)]
  | kv :: rest, i, v => if kv.1 = i then (i, v) :: rest else kv :: assocSet rest i v

/-- A parameter tensor handle: a stable identity (Python object identity, used
as the `self.state` key), the current value `p.data` and the gradient
`p.grad` (`none` when the gradient is absent). -/
structure Param (α : Type) where
  id : ℕ
  data : α
  grad : Option α
  deriving DecidableEq

/-- One entry of `self.param_groups`: the parameter list plus the group's
hyperparameter dictionary (everything except the `'params'` entry). -/
structure ParamGroup (α : Type) where
  params : List (Param α)
  hyper : Hypers
  deriving DecidableEq

/-- State of a Frank-Wolfe optimizer: the shared step counter `self.k` and
`self.param_groups`. -/
structure FWState (α : Type) where
  k : ℕ
  param_groups : List (ParamGroup α)
  deriving DecidableEq

/-- State of `SGDl1`: `self.param_groups` plus `self.state` (the lazily filled
momentum buffers, keyed by parameter identity). -/
structure SGDl1State where
  param_groups : List (ParamGroup (List ℚ))
  stateMap : StateMap
  deriving DecidableEq

/-- `torch.sign` on one entry; `sign 0 = 0`. -/
def sign (x : ℚ) : ℚ :=
  if 0 < x then 1 else if x < 0 then -1 else 0

def l1norm (v : List ℚ) : ℚ := (v.map (fun x => |x|)).sum

/-- Index of the entry of maximum absolute value, first occurrence on ties
(strict `<` keeps the earlier index). -/
def argmaxAbsAux : List ℚ → ℕ → ℕ → ℚ → ℕ
  | [], _, bi, _ => bi
  | x :: xs, i, bi, bv =>
    if bv < |x| then argmaxAbsAux xs (i + 1) i |x| else argmaxAbsAux xs (i + 1) bi bv

def argmaxAbs : List ℚ → ℕ
  | [] => 0
  | x :: xs => argmaxAbsAux xs 1 0 |x|

/-- The length-`n` vector that is zero except for value `c` at index `i`. -/
def oneHot : ℕ → ℕ → ℚ → List ℚ
  | 0, _, _ => []
  | n + 1, 0, c => c :: List.replicate n 0
  | n + 1, i + 1, c => 0 :: oneHot n i c

/-- Modelled from the spec: `LMO_l1` is defined in `oracles.py`, which is
absent from the source snapshot (`optimizers.py` only imports it).  Spec §4.1:
find the index `i*` of the entry of maximum absolute value of the gradient
(first occurrence on ties) and return the zero vector of the same length with
`s[i*] = -kappa * sign(gradient[i*])`; an all-zero gradient yields the zero
vector because `sign 0 = 0`. -/
def LMO_l1 (g : List ℚ) (kappa : ℚ) : List ℚ :=
  oneHot g.length (argmaxAbs g) (-kappa * sign (g.getD (argmaxAbs g) 0))

/-! ### SGDFWl1.step (lines 59-83)

Per group: `kappa = group['kappa_l1']` (a `KeyError` when the key is absent —
the constructor stores the radius under the key `kappa`), then per parameter
with a present gradient: `s = LMO_l1(p.grad.data.numpy(), kappa)`,
`gamma = 2 / (self.k + 2)`, `delta_p = gamma * s - gamma * p.data`,
`p.data.add_(delta_p)`.  After all groups: `self.k += 1`. -/

def FWl1paramStep (k : ℕ) (kappa : ℚ) (p : Param (List ℚ)) : Param (List ℚ) :=
  match p.grad with
  | none => p
  | some g =>
    let s := LMO_l1 g kappa
    let gamma : ℚ := 2 / ((k : ℚ) + 2)
    let delta_p := List.zipWith (fun si pi => gamma * si - gamma * pi) s p.data
    { p with data := List.zipWith (fun pi di => pi + di) p.data delta_p }

def FWl1groupRun (k : ℕ) (g : ParamGroup (List ℚ)) : ParamGroup (List ℚ) × Option String :=
  match dictGet g.hyper Key.kappa_l1 with
  | none => (g, some "KeyError: kappa_l1")
  | some kappa => ({ g with params := g.params.map (FWl1paramStep k kappa) }, none)

def FWl1groupsRun (k : ℕ) : List (ParamGroup (List ℚ)) → List (ParamGroup (List ℚ)) × Option String
  | [] => ([], none)
  | g :: gs =>
    match FWl1groupRun k g with
    | (g', some err) => (g' :: gs, some err)
    | (g', none) =>
      match FWl1groupsRun k gs with
      | (gs', e) => (g' :: gs', e)

/-- The body of `SGDFWl1.step` apart from the closure handling; `self.k` is
incremented only when the group loop finishes without raising. -/
def SGDFWl1stepCore (st : FWState (List ℚ)) : FWState (List ℚ) × Option String :=
  match FWl1groupsRun st.k st.param_groups with
  | (gs', e) => ({ k := if e.isNone then st.k + 1 else st.k, param_groups := gs' }, e)

/-- `n` consecutive invocations of `SGDFWl1.step` (the caller keeps calling,
exceptions notwithstanding; a raising call leaves the state unchanged). -/
def SGDFWl1stepN : ℕ → FWState (List ℚ) → FWState (List ℚ)
  | 0, st => st
  | n + 1, st => SGDFWl1stepN n (SGDFWl1stepCore st).1

/-! ### SGDFWNuclear.step (lines 95-119)

Identical control structure on 2D tensors; `LMO_nuclear` (in the missing
`oracles.py`, a top-singular-triplet computation) is taken as a function
parameter `lmo`. -/

abbrev QMat := List (List ℚ)

def FWnucParamStep (lmo : QMat → ℚ → QMat) (k : ℕ) (kappa : ℚ) (p : Param QMat) : Param QMat :=
  match p.grad with
  | none => p
  | some g =>
    let s := lmo g kappa
    let gamma : ℚ := 2 / ((k : ℚ) + 2)
    let delta_p :=
      List.zipWith (fun srow prow => List.zipWith (fun si pi => gamma * si - gamma * pi) srow prow) s p.data
    { p with data := List.zipWith (fun prow drow => List.zipWith (fun pi di => pi + di) prow drow) p.data delta_p }

def FWnucGroupRun (lmo : QMat → ℚ → QMat) (k : ℕ) (g : ParamGroup QMat) :
    ParamGroup QMat × Option String :=
  match dictGet g.hyper Key.kappa_l1 with
  | none => (g, some "KeyError: kappa_l1")
  | some kappa => ({ g with params := g.params.map (FWnucParamStep lmo k kappa) }, none)

def FWnucGroupsRun (lmo : QMat → ℚ → QMat) (k : ℕ) :
    List (ParamGroup QMat) → List (ParamGroup QMat) × Option String
  | [] => ([], none)
  | g :: gs =>
    match FWnucGroupRun lmo k g with
    | (g', some err) => (g' :: gs, some err)
    | (g', none) =>
      match FWnucGroupsRun lmo k gs with
      | (gs', e) => (g' :: gs', e)

def SGDFWNuclearStepCore (lmo : QMat → ℚ → QMat) (st : FWState QMat) : FWState QMat × Option String :=
  match FWnucGroupsRun lmo st.k st.param_groups with
  | (gs', e) => ({ k := if e.isNone then st.k + 1 else st.k, param_groups := gs' }, e)

/-! ### SGDl1.step (lines 12-47)

Per group: read `l1`, `momentum`, `dampening` from the group dict (the latter
two are not in the constructor `defaults`, so they raise a `KeyError` unless
the caller supplied them in a group dict).  Per parameter with a present
gradient: `d_p = p.grad.data` (an alias!), `d_p.add_(lam, torch.sign(p.data))`
— this mutates the gradient tensor in place — then the momentum-buffer logic,
then `p.data.add_(-group['lr'], d_p)`. -/

def SGDl1paramRun (hyper : Hypers) (lam mom damp : ℚ) (stM : StateMap) (p : Param (List ℚ)) :
    Param (List ℚ) × StateMap × Option String :=
  match p.grad with
  | none => (p, stM, none)
  | some g =>
    let dp := List.zipWith (fun gi pi => gi + lam * sign pi) g p.data
    let bufAndMap : List ℚ × StateMap :=
      if mom ≠ 0 then
        match assocGet stM p.id with
        | none =>
          let buf := List.zipWith (fun z x => mom * z + x) (p.data.map (fun _ => (0 : ℚ))) dp
          (buf, assocSet stM p.id buf)
        | some buf0 =>
          let buf := List.zipWith (fun b x => mom * b + (1 - damp) * x) buf0 dp
          (buf, assocSet stM p.id buf)
      else (dp, stM)
    match dictGet hyper Key.lr with
    | none => ({ p with grad := some dp }, bufAndMap.2, some "KeyError: lr")
    | some lr =>
      ({ p with grad := some dp,
                data := List.zipWith (fun pi di => pi + -lr * di) p.data bufAndMap.1 },
       bufAndMap.2, none)

def SGDl1paramsRun (hyper : Hypers) (lam mom damp : ℚ) :
    List (Param (List ℚ)) → StateMap → List (Param (List ℚ)) × StateMap × Option String
  | [], stM => ([], stM, none)
  | p :: ps, stM =>
    match SGDl1paramRun hyper lam mom damp stM p with
    | (p', stM', some err) => (p' :: ps, stM', some err)
    | (p', stM', none) =>
      match SGDl1paramsRun hyper lam mom damp ps stM' with
      | (ps', stM'', e) => (p' :: ps', stM'', e)

def SGDl1groupRun (g : ParamGroup (List ℚ)) (stM : StateMap) :
    ParamGroup (List ℚ) × StateMap × Option String :=
  match dictGet g.hyper Key.l1 with
  | none => (g, stM, some "KeyError: l1")
  | some lam =>
    match dictGet g.hyper Key.momentum with
    | none => (g, stM, some "KeyError: momentum")
    | some mom =>
      match dictGet g.hyper Key.dampening with
      | none => (g, stM, some "KeyError: dampening")
      | some damp =>
        match SGDl1paramsRun g.hyper lam mom damp g.params stM with
        | (ps', stM', e) => ({ g with params := ps' }, stM', e)

def SGDl1groupsRun : List (ParamGroup (List ℚ)) → StateMap →
    List (ParamGroup (List ℚ)) × StateMap × Option String
  | [], stM => ([], stM, none)
  | g :: gs, stM =>
    match SGDl1groupRun g stM with
    | (g', stM', some err) => (g' :: gs, stM', some err)
    | (g', stM', none) =>
      match SGDl1groupsRun gs stM' with
      | (gs', stM'', e) => (g' :: gs', stM'', e)

def SGDl1stepCore (st : SGDl1State) : SGDl1State × Option String :=
  match SGDl1groupsRun st.param_groups st.stateMap with
  | (gs', stM', e) => ({ param_groups := gs', stateMap := stM' }, e)

/-! ### Closures and the full `step` entry points

`closure` is an arbitrary effectful thunk: it may carry its own state `σ` and
may also touch the optimizer state (in PyTorch it typically recomputes the
gradients).  `step` invokes it exactly once, before the group loop, and
returns its value as `loss`. -/

def SGDl1step {σ : Type} (closure : Option (σ → SGDl1State → ℚ × σ × SGDl1State)) (cs : σ)
    (st : SGDl1State) : Option ℚ × σ × SGDl1State × Option String :=
  match closure with
  | none =>
    match SGDl1stepCore st with
    | (st', e) => (none, cs, st', e)
  | some f =>
    match f cs st with
    | (l, cs', st1) =>
      match SGDl1stepCore st1 with
      | (st', e) => (some l, cs', st', e)

def SGDFWl1step {σ : Type} (closure : Option (σ → FWState (List ℚ) → ℚ × σ × FWState (List ℚ)))
    (cs : σ) (st : FWState (List ℚ)) : Option ℚ × σ × FWState (List ℚ) × Option String :=
  match closure with
  | none =>
    match SGDFWl1stepCore st with
    | (st', e) => (none, cs, st', e)
  | some f =>
    match f cs st with
    | (l, cs', st1) =>
      match SGDFWl1stepCore st1 with
      | (st', e) => (some l, cs', st', e)

def SGDFWNuclearStep (lmo : QMat → ℚ → QMat) {σ : Type}
    (closure : Option (σ → FWState QMat → ℚ × σ × FWState QMat)) (cs : σ) (st : FWState QMat) :
    Option ℚ × σ × FWState QMat × Option String :=
  match closure with
  | none =>
    match SGDFWNuclearStepCore lmo st with
    | (st', e) => (none, cs, st', e)
  | some f =>
    match f cs st with
    | (l, cs', st1) =>
      match SGDFWNuclearStepCore lmo st1 with
      | (st', e) => (some l, cs', st', e)

/-! ### Constructors

`torch.optim.Optimizer.__init__` rejects an empty parameter list and merges
`defaults` into every group dict via `setdefault`.  Each `assert` of the
source becomes an `AssertionError` result, raised before the base constructor
runs (so before any parameter is read). -/

def optimizerInitGroups {α : Type} (groups : List (ParamGroup α)) (defaults : Hypers) :
    Except String (List (ParamGroup α)) :=
  if groups.isEmpty then Except.error "ValueError: optimizer got an empty parameter list"
  else Except.ok (groups.map (fun g => { g with hyper := dictSetdefaultAll g.hyper defaults }))

/-- `SGDl1.__init__(params, lr, lambda_l1)`: `assert lambda_l1 > 0`, then
`defaults = dict(lr=lr, l1=lambda_l1)` and the base constructor. -/
def SGDl1init (groups : List (ParamGroup (List ℚ))) (lr lambda_l1 : ℚ) :
    Except String SGDl1State :=
  if 0 < lambda_l1 then
    match optimizerInitGroups groups [(Key.lr, lr), (Key.l1, lambda_l1)] with
    | Except.error e => Except.error e
    | Except.ok gs => Except.ok { param_groups := gs, stateMap := [] }
  else Except.error "AssertionError"

/-- `SGDFWl1.__init__(params, kappa_l1)`: `self.k = 0`, `assert kappa_l1 > 0`,
then `defaults = dict(kappa=kappa_l1)` — note the key is `kappa`, not the
`kappa_l1` that `step` later reads. -/
def SGDFWl1init (groups : List (ParamGroup (List ℚ))) (kappa_l1 : ℚ) :
    Except String (FWState (List ℚ)) :=
  if 0 < kappa_l1 then
    match optimizerInitGroups groups [(Key.kappa, kappa_l1)] with
    | Except.error e => Except.error e
    | Except.ok gs => Except.ok { k := 0, param_groups := gs }
  else Except.error "AssertionError"

/-- Python semantics of `object.__init__` when reached with `n` positional
arguments beyond the instance: any extra argument is a `TypeError`. -/
def objectInitExtraArgs (n : ℕ) : Except String Unit :=
  if n = 0 then Except.ok ()
  else Except.error "TypeError: object.__init__() takes exactly one argument"

/-- `SGDFWNuclear.__init__(params, kappa_l1)`: `self.k = 0`,
`assert kappa_l1 > 0`, then `super(Optimizer, self).__init__(params, defaults)`
— the method resolution order past `Optimizer` is `object`, so this calls
`object.__init__` with two extra positional arguments and never reaches
`Optimizer.__init__`; `param_groups` is never established. -/
def SGDFWNuclearInit (groups : List (ParamGroup QMat)) (kappa_l1 : ℚ) :
    Except String (FWState QMat) :=
  if 0 < kappa_l1 then
    match objectInitExtraArgs 2 with
    | Except.error e => Except.error e
    | Except.ok _ => Except.ok { k := 0, param_groups := groups }
  else Except.error "AssertionError"

/-! ### Observations used by the theorems -/

/-- The gradients of every parameter of every group, in order. -/
def gradsOf {α : Type} (gs : List (ParamGroup α)) : List (List (Option α)) :=
  gs.map (fun g => g.params.map (fun p => p.grad))

/-- A group is feasible when every parameter value has L1 norm at most the
radius the group's `step` would use (its `kappa_l1` entry, when present). -/
def groupFeasible (g : ParamGroup (List ℚ)) : Prop :=
  ∀ kappa, dictGet g.hyper Key.kappa_l1 = some kappa → ∀ p ∈ g.params, l1norm p.data ≤ kappa

def FWl1feasible (st : FWState (List ℚ)) : Prop :=
  ∀ g ∈ st.param_groups, groupFeasible g

/-! ### Concrete states used in evaluations and witnesses -/

/-- One parameter inside the unit L1 ball, with a gradient. -/
def fwBugParam : Param (List ℚ) := { id := 0, data := [1/2], grad := some [1] }

/-- The state `SGDFWl1([fwBugParam-as-plain-parameter], kappa_l1=1)` builds:
one group whose dict holds the radius under the key `kappa`. -/
def fwBugState : FWState (List ℚ) :=
  { k := 0, param_groups := [{ params := [fwBugParam], hyper := [(Key.kappa, 1)] }] }

/-- A group dictionary carrying all four hyperparameters `SGDl1.step` reads:
`lr = 1`, `lambda = 1`, `momentum = 0`, `dampening = 0`. -/
def sgdMutHyper : Hypers :=
  [(Key.lr, 1), (Key.l1, 1), (Key.momentum, 0), (Key.dampening, 0)]

/-- An `SGDl1` state whose single group carries all four hyperparameters, with
one parameter of value `[1]` and gradient `[1]`. -/
def sgdMutState : SGDl1State :=
  { param_groups :=
      [{ params := [{ id := 0, data := [1], grad := some [1] }], hyper := sgdMutHyper }],
    stateMap := [] }

/-- A group dictionary carrying the `kappa_l1` key the Frank-Wolfe step reads
(a caller-supplied group override), radius 2. -/
def fwFeasHyper : Hypers := [(Key.kappa_l1, 2)]

/-- A feasible `SGDFWl1` state whose group dict carries the `kappa_l1` key the
step reads, radius 2. -/
def fwFeasState : FWState (List ℚ) :=
  { k := 0,
    param_groups :=
      [{ params := [{ id := 0, data := [1/2, -1/4], grad := some [3, 1] }],
         hyper := fwFeasHyper }] }

/-! ## Helper lemmas -/

theorem l1norm_nil : l1norm [] = 0 := rfl

theorem l1norm_cons (x : ℚ) (xs : List ℚ) : l1norm (x :: xs) = |x| + l1norm xs := by
  simp [l1norm]

theorem l1norm_nonneg (v : List ℚ) : 0 ≤ l1norm v := by
  induction v with
  | nil => simp [l1norm]
  | cons x xs ih => rw [l1norm_cons]; exact add_nonneg (abs_nonneg x) ih

theorem l1norm_replicate_zero (n : ℕ) : l1norm (List.replicate n (0 : ℚ)) = 0 := by
  induction n with
  | zero => rfl
  | succ n ih => rw [List.replicate_succ, l1norm_cons, ih]; simp

theorem l1norm_oneHot_le (n : ℕ) (c : ℚ) : ∀ i, l1norm (oneHot n i c) ≤ |c| := by
  induction n with
  | zero => intro i; simp [oneHot, l1norm]
  | succ n ih =>
    intro i
    cases i with
    | zero => simp [oneHot, l1norm_cons, l1norm_replicate_zero]
    | succ i => simpa [oneHot, l1norm_cons] using ih i

theorem abs_sign_le_one (x : ℚ) : |sign x| ≤ 1 := by
  unfold sign
  split_ifs <;> norm_num

theorem l1norm_LMO_l1_le (g : List ℚ) (kappa : ℚ) (hk : 0 ≤ kappa) :
    l1norm (LMO_l1 g kappa) ≤ kappa := by
  unfold LMO_l1
  refine le_trans (l1norm_oneHot_le _ _ _) ?_
  rw [abs_mul, abs_neg, abs_of_nonneg hk]
  exact mul_le_of_le_one_right hk (abs_sign_le_one _)

theorem gamma_nonneg (k : ℕ) : 0 ≤ (2 : ℚ) / ((k : ℚ) + 2) := by positivity

theorem gamma_le_one (k : ℕ) : (2 : ℚ) / ((k : ℚ) + 2) ≤ 1 := by
  rw [div_le_one (by positivity)]
  have h : (0 : ℚ) ≤ (k : ℚ) := Nat.cast_nonneg k
  linarith

theorem zipWith_comp_right (f h : ℚ → ℚ → ℚ) (p s : List ℚ) :
    List.zipWith f p (List.zipWith h s p) = List.zipWith (fun a b => f a (h b a)) p s := by
  induction p generalizing s with
  | nil => simp
  | cons a p ih =>
    cases s with
    | nil => simp
    | cons b s => simp [ih]

theorem zipWith_ext (f g : ℚ → ℚ → ℚ) (h : ∀ a b, f a b = g a b) :
    ∀ as bs : List ℚ, List.zipWith f as bs = List.zipWith g as bs := by
  intro as
  induction as with
  | nil => intro bs; simp
  | cons a as ih =>
    intro bs
    cases bs with
    | nil => simp
    | cons b bs => simp [h, ih]

theorem l1norm_zip_convex (gamma : ℚ) (h0 : 0 ≤ gamma) (h1 : gamma ≤ 1) (s p : List ℚ) :
    l1norm (List.zipWith (fun pi di => pi + di) p
        (List.zipWith (fun si pi => gamma * si - gamma * pi) s p)) ≤
      (1 - gamma) * l1norm p + gamma * l1norm s := by
  induction p generalizing s with
  | nil =>
    have hs := l1norm_nonneg s
    have := mul_nonneg h0 hs
    simp [l1norm_nil]
    nlinarith
  | cons a p ih =>
    cases s with
    | nil =>
      have hp := l1norm_nonneg (a :: p)
      have h2 : (0 : ℚ) ≤ 1 - gamma := by linarith
      simp [l1norm_nil]
      nlinarith
    | cons b s =>
      simp only [List.zipWith_cons_cons, l1norm_cons]
      have hhead : |a + (gamma * b - gamma * a)| ≤ (1 - gamma) * |a| + gamma * |b| := by
        have h2 : a + (gamma * b - gamma * a) = (1 - gamma) * a + gamma * b := by ring
        rw [h2]
        calc |(1 - gamma) * a + gamma * b| ≤ |(1 - gamma) * a| + |gamma * b| := abs_add _ _
          _ = (1 - gamma) * |a| + gamma * |b| := by
              rw [abs_mul, abs_mul, abs_of_nonneg (by linarith : (0 : ℚ) ≤ 1 - gamma),
                abs_of_nonneg h0]
      have htail := ih s
      nlinarith [htail, hhead]

theorem zipWith_zero_buf (m : ℚ) (n : ℕ) (dp : List ℚ) (h : dp.length ≤ n) :
    List.zipWith (fun z x => m * z + x) (List.replicate n (0 : ℚ)) dp = dp := by
  induction n generalizing dp with
  | zero =>
    cases dp with
    | nil => rfl
    | cons d dp => simp at h
  | succ n ih =>
    cases dp with
    | nil => rfl
    | cons d dp =>
      simp only [List.replicate_succ, List.zipWith_cons_cons, mul_zero, zero_add]
      rw [ih dp (by simpa using h)]

theorem FWl1paramStep_grad (k : ℕ) (kappa : ℚ) (p : Param (List ℚ)) :
    (FWl1paramStep k kappa p).grad = p.grad := by
  cases h : p.grad <;> simp [FWl1paramStep, h]

theorem FWnucParamStep_grad (lmo : QMat → ℚ → QMat) (k : ℕ) (kappa : ℚ) (p : Param QMat) :
    (FWnucParamStep lmo k kappa p).grad = p.grad := by
  cases h : p.grad <;> simp [FWnucParamStep, h]

theorem FWl1paramStep_norm (k : ℕ) (kappa : ℚ) (p : Param (List ℚ)) (hk : 0 ≤ kappa)
    (h : l1norm p.data ≤ kappa) : l1norm (FWl1paramStep k kappa p).data ≤ kappa := by
  cases hg : p.grad with
  | none => simpa [FWl1paramStep, hg] using h
  | some g =>
    have h0 := gamma_nonneg k
    have h1 := gamma_le_one k
    have hb := l1norm_zip_convex (2 / ((k : ℚ) + 2)) h0 h1 (LMO_l1 g kappa) p.data
    have hs := l1norm_LMO_l1_le g kappa hk
    simp only [FWl1paramStep, hg]
    nlinarith [hb, hs, h]

theorem FWl1groupRun_feasible (k : ℕ) (g : ParamGroup (List ℚ)) (h : groupFeasible g) :
    groupFeasible (FWl1groupRun k g).1 := by
  unfold FWl1groupRun
  cases hd : dictGet g.hyper Key.kappa_l1 with
  | none => simpa [hd] using h
  | some kappa =>
    simp only [hd]
    intro kappa' hk' p hp
    simp only at hk' hp
    rw [hd] at hk'
    injection hk' with hk'
    subst hk'
    obtain ⟨q, hq, rfl⟩ := List.mem_map.mp hp
    have hle := h kappa hd q hq
    have hk0 : 0 ≤ kappa := le_trans (l1norm_nonneg q.data) hle
    exact FWl1paramStep_norm k kappa q hk0 hle

theorem FWl1groupsRun_feasible (k : ℕ) (gs : List (ParamGroup (List ℚ)))
    (h : ∀ g ∈ gs, groupFeasible g) : ∀ g ∈ (FWl1groupsRun k gs).1, groupFeasible g := by
  induction gs with
  | nil => simp [FWl1groupsRun]
  | cons g0 gs ih =>
    rcases hpr : FWl1groupRun k g0 with ⟨g', e⟩
    have hg' : groupFeasible g' := by
      have := FWl1groupRun_feasible k g0 (h g0 (by simp))
      rwa [hpr] at this
    have hrest : ∀ g ∈ gs, groupFeasible g := fun g hg => h g (List.mem_cons_of_mem _ hg)
    cases e with
    | some err =>
      simp only [FWl1groupsRun, hpr]
      intro g hg
      rcases List.mem_cons.mp hg with rfl | hg
      · exact hg'
      · exact hrest g hg
    | none =>
      rcases hrr : FWl1groupsRun k gs with ⟨gs', e'⟩
      simp only [FWl1groupsRun, hpr, hrr]
      intro g hg
      rcases List.mem_cons.mp hg with rfl | hg
      · exact hg'
      · have := ih hrest
        rw [hrr] at this
        exact this g hg

theorem SGDFWl1stepCore_feasible (st : FWState (List ℚ)) (h : FWl1feasible st) :
    FWl1feasible (SGDFWl1stepCore st).1 := by
  rcases hr : FWl1groupsRun st.k st.param_groups with ⟨gs', e⟩
  simp only [SGDFWl1stepCore, hr, FWl1feasible]
  intro g hg
  have := FWl1groupsRun_feasible st.k st.param_groups h
  rw [hr] at this
  exact this g hg

theorem SGDl1paramRun_absent (hyper : Hypers) (lam mom damp : ℚ) (stM : StateMap)
    (p : Param (List ℚ)) (h : p.grad = none) :
    SGDl1paramRun hyper lam mom damp stM p = (p, stM, none) := by
  simp [SGDl1paramRun, h]

theorem SGDl1paramRun_grad (hyper : Hypers) (lam mom damp : ℚ) (stM : StateMap)
    (p : Param (List ℚ)) (g : List ℚ) (hg : p.grad = some g) :
    ((SGDl1paramRun hyper lam mom damp stM p).1).grad =
      some (List.zipWith (fun gi pi => gi + lam * sign pi) g p.data) := by
  cases hd : dictGet hyper Key.lr <;> simp [SGDl1paramRun, hg, hd]

theorem SGDl1paramsRun_absent (hyper : Hypers) (lam mom damp : ℚ)
    (ps : List (Param (List ℚ))) (stM : StateMap) (h : ∀ p ∈ ps, p.grad = none) :
    SGDl1paramsRun hyper lam mom damp ps stM = (ps, stM, none) := by
  induction ps generalizing stM with
  | nil => rfl
  | cons p ps ih =>
    have hp : p.grad = none := h p (by simp)
    have hrun := SGDl1paramRun_absent hyper lam mom damp stM p hp
    have hrest := ih stM (fun q hq => h q (List.mem_cons_of_mem _ hq))
    simp [SGDl1paramsRun, hrun, hrest]

theorem SGDl1groupRun_absent (g : ParamGroup (List ℚ)) (stM : StateMap)
    (h : ∀ p ∈ g.params, p.grad = none) :
    (SGDl1groupRun g stM).1 = g ∧ (SGDl1groupRun g stM).2.1 = stM := by
  cases h1 : dictGet g.hyper Key.l1 with
  | none => simp [SGDl1groupRun, h1]
  | some lam =>
    cases h2 : dictGet g.hyper Key.momentum with
    | none => simp [SGDl1groupRun, h1, h2]
    | some mom =>
      cases h3 : dictGet g.hyper Key.dampening with
      | none => simp [SGDl1groupRun, h1, h2, h3]
      | some damp =>
        simp [SGDl1groupRun, h1, h2, h3,
          SGDl1paramsRun_absent g.hyper lam mom damp g.params stM h]

theorem SGDl1groupsRun_absent (gs : List (ParamGroup (List ℚ))) (stM : StateMap)
    (h : ∀ g ∈ gs, ∀ p ∈ g.params, p.grad = none) :
    (SGDl1groupsRun gs stM).1 = gs ∧ (SGDl1groupsRun gs stM).2.1 = stM := by
  induction gs generalizing stM with
  | nil => exact ⟨rfl, rfl⟩
  | cons g gs ih =>
    have hgabs := h g (by simp)
    have hrest : ∀ q ∈ gs, ∀ p ∈ q.params, p.grad = none :=
      fun q hq => h q (List.mem_cons_of_mem _ hq)
    have hid := SGDl1groupRun_absent g stM hgabs
    have hihs := ih stM hrest
    rcases hr : SGDl1groupRun g stM with ⟨g', stM', e⟩
    rw [hr] at hid
    obtain ⟨hg', hstM'⟩ := hid
    simp only at hg' hstM'
    cases e with
    | some err => simp [SGDl1groupsRun, hr, hg', hstM']
    | none =>
      rcases hrr : SGDl1groupsRun gs stM with ⟨gs2, stM2, e2⟩
      rw [hrr] at hihs
      obtain ⟨hh1, hh2⟩ := hihs
      simp only at hh1 hh2
      simp [SGDl1groupsRun, hr, hstM', hrr, hh1, hh2, hg']

theorem gradsOf_nil {α : Type} : gradsOf ([] : List (ParamGroup α)) = [] := rfl

theorem gradsOf_cons {α : Type} (g : ParamGroup α) (gs : List (ParamGroup α)) :
    gradsOf (g :: gs) = (g.params.map (fun p => p.grad)) :: gradsOf gs := rfl

theorem FWl1groupRun_grads (k : ℕ) (g : ParamGroup (List ℚ)) :
    ((FWl1groupRun k g).1).params.map (fun p => p.grad) = g.params.map (fun p => p.grad) := by
  unfold FWl1groupRun
  cases hd : dictGet g.hyper Key.kappa_l1 with
  | none => rfl
  | some kappa =>
    simp only [List.map_map]
    exact List.map_congr_left (fun p _ => FWl1paramStep_grad k kappa p)

theorem FWl1groupsRun_grads (k : ℕ) (gs : List (ParamGroup (List ℚ))) :
    gradsOf (FWl1groupsRun k gs).1 = gradsOf gs := by
  induction gs with
  | nil => rfl
  | cons g gs ih =>
    rcases hr : FWl1groupRun k g with ⟨g', e⟩
    have hg := FWl1groupRun_grads k g
    rw [hr] at hg
    simp only at hg
    cases e with
    | some err => simp [FWl1groupsRun, hr, gradsOf_cons, hg]
    | none =>
      rcases hrr : FWl1groupsRun k gs with ⟨gs', e'⟩
      rw [hrr] at ih
      simp only at ih
      simp [FWl1groupsRun, hr, hrr, gradsOf_cons, hg, ih]

theorem FWnucGroupRun_grads (lmo : QMat → ℚ → QMat) (k : ℕ) (g : ParamGroup QMat) :
    ((FWnucGroupRun lmo k g).1).params.map (fun p => p.grad) = g.params.map (fun p => p.grad) := by
  unfold FWnucGroupRun
  cases hd : dictGet g.hyper Key.kappa_l1 with
  | none => rfl
  | some kappa =>
    simp only [List.map_map]
    exact List.map_congr_left (fun p _ => FWnucParamStep_grad lmo k kappa p)

theorem FWnucGroupsRun_grads (lmo : QMat → ℚ → QMat) (k : ℕ) (gs : List (ParamGroup QMat)) :
    gradsOf (FWnucGroupsRun lmo k gs).1 = gradsOf gs := by
  induction gs with
  | nil => rfl
  | cons g gs ih =>
    rcases hr : FWnucGroupRun lmo k g with ⟨g', e⟩
    have hg := FWnucGroupRun_grads lmo k g
    rw [hr] at hg
    simp only at hg
    cases e with
    | some err => simp [FWnucGroupsRun, hr, gradsOf_cons, hg]
    | none =>
      rcases hrr : FWnucGroupsRun lmo k gs with ⟨gs', e'⟩
      rw [hrr] at ih
      simp only at ih
      simp [FWnucGroupsRun, hr, hrr, gradsOf_cons, hg, ih]

/-- When a call of `SGDFWl1.step` completes without raising, the shared counter
is incremented by exactly one, independent of the groups processed. -/
theorem SGDFWl1stepCore_ok_increments (st st' : FWState (List ℚ))
    (h : SGDFWl1stepCore st = (st', none)) : st'.k = st.k + 1 := by
  rcases hr : FWl1groupsRun st.k st.param_groups with ⟨gs', e⟩
  simp only [SGDFWl1stepCore, hr, Prod.mk.injEq] at h
  obtain ⟨h1, h2⟩ := h
  subst h2
  rw [← h1]
  simp

/-! ## Claim theorems -/

/-- C1: the claim says every `SGDFWl1.step` call updates each parameter with a
present gradient by `p := p + gamma * (LMO_l1(grad, kappa) - p)` using the
group radius.  The code cannot do this: `SGDFWl1.__init__` stores the radius
under the dictionary key `kappa`, while `step` reads `group['kappa_l1']`, so on
the state built by the constructor the step raises `KeyError: kappa_l1` before
touching any parameter — the state (parameter values and counter) is returned
unchanged together with the error. -/
theorem sgdfwl1_step_raises_keyerror :
    SGDFWl1init [{ params := [fwBugParam], hyper := [] }] 1 = Except.ok fwBugState ∧
    SGDFWl1stepCore fwBugState = (fwBugState, some "KeyError: kappa_l1") :=
  ⟨rfl, rfl⟩

/-- C2: if every parameter of a group starts with L1 norm at most the radius
the step uses for that group, this remains true after arbitrarily many
`SGDFWl1.step` calls (steps that raise leave the parameters unchanged, and
completed updates are convex combinations with an `LMO_l1` point of norm at
most the radius). -/
theorem sgdfwl1_feasibility_invariant (n : ℕ) (st : FWState (List ℚ)) (h : FWl1feasible st) :
    FWl1feasible (SGDFWl1stepN n st) := by
  induction n generalizing st with
  | zero => exact h
  | succ n ih => exact ih (SGDFWl1stepCore st).1 (SGDFWl1stepCore_feasible st h)

theorem sgdfwl1_feasibility_invariant_witness :
    FWl1feasible fwFeasState ∧ FWl1feasible (SGDFWl1stepN 2 fwFeasState) := by
  have hf : FWl1feasible fwFeasState := by
    intro g hg kappa hk p hp
    simp only [fwFeasState] at hg
    rw [List.mem_singleton] at hg
    subst hg
    simp only [fwFeasHyper, dictGet] at hk
    norm_num at hk
    subst hk
    rw [List.mem_singleton] at hp
    subst hp
    have ha : |(1 / 2 : ℚ)| = 1 / 2 := abs_of_pos (by norm_num)
    have hb : |(1 / 4 : ℚ)| = 1 / 4 := abs_of_pos (by norm_num)
    norm_num [l1norm, ha, hb]
  exact ⟨hf, sgdfwl1_feasibility_invariant 2 fwFeasState hf⟩

/-- C3: the claim says the shared counter `k` of both Frank-Wolfe optimizers
equals `N` after `N` calls to `step`.  On the state the `SGDFWl1` constructor
builds, every `step` call raises `KeyError: kappa_l1` before reaching
`self.k += 1`, so after 2 calls the counter is still 0, not 2 (and a usable
`SGDFWNuclear` instance cannot be constructed at all, see the C10 theorem). -/
theorem sgdfwl1_counter_stuck_at_zero :
    (SGDFWl1stepN 2 fwBugState).k = 0 ∧ (SGDFWl1stepN 2 fwBugState).k ≠ 2 :=
  ⟨rfl, by decide⟩

/-- C4: in `SGDl1.step` with `momentum ≠ 0`, the first update of a parameter
stores the effective gradient `grad + lambda * sign(param)` itself in the
momentum buffer (no `momentum` factor, no `1 - dampening` factor), while every
later update replaces the buffer by
`momentum * buffer + (1 - dampening) * effective_gradient`; in both cases the
buffer is the descent direction applied as `param := param - lr * direction`. -/
theorem sgdl1_momentum_buffer_update (hyper : Hypers) (lam mom damp lr : ℚ) (stM : StateMap)
    (p : Param (List ℚ)) (g : List ℚ) (hm : mom ≠ 0) (hg : p.grad = some g)
    (hlr : dictGet hyper Key.lr = some lr) :
    (assocGet stM p.id = none →
      SGDl1paramRun hyper lam mom damp stM p =
        ({ p with grad := some (List.zipWith (fun gi pi => gi + lam * sign pi) g p.data),
                  data := List.zipWith (fun pi di => pi + -(lr * di)) p.data
                    (List.zipWith (fun gi pi => gi + lam * sign pi) g p.data) },
         assocSet stM p.id (List.zipWith (fun gi pi => gi + lam * sign pi) g p.data), none)) ∧
    (∀ buf0, assocGet stM p.id = some buf0 →
      SGDl1paramRun hyper lam mom damp stM p =
        ({ p with grad := some (List.zipWith (fun gi pi => gi + lam * sign pi) g p.data),
                  data := List.zipWith (fun pi di => pi + -(lr * di)) p.data
                    (List.zipWith (fun b x => mom * b + (1 - damp) * x) buf0
                      (List.zipWith (fun gi pi => gi + lam * sign pi) g p.data)) },
         assocSet stM p.id (List.zipWith (fun b x => mom * b + (1 - damp) * x) buf0
           (List.zipWith (fun gi pi => gi + lam * sign pi) g p.data)), none)) := by
  constructor
  · intro hfirst
    have hbuf := zipWith_zero_buf mom p.data.length
      (List.zipWith (fun gi pi => gi + lam * sign pi) g p.data)
      (le_trans (List.length_zipWith _ _ _).le (min_le_right _ _))
    simp [SGDl1paramRun, hg, hlr, hm, hfirst, hbuf]
  · intro buf0 hbuf0
    simp [SGDl1paramRun, hg, hlr, hm, hbuf0]

theorem sgdl1_momentum_buffer_update_witness :
    SGDl1paramRun [(Key.lr, 1)] 1 1 0 [] ⟨0, [1], some [2]⟩ =
      ({ id := 0,
         data := List.zipWith (fun pi di => pi + -(1 * di)) [1]
           (List.zipWith (fun gi pi => gi + 1 * sign pi) [2] [1]),
         grad := some (List.zipWith (fun gi pi => gi + 1 * sign pi) [2] [1]) },
       assocSet [] 0 (List.zipWith (fun gi pi => gi + 1 * sign pi) [2] [1]), none) ∧
    SGDl1paramRun [(Key.lr, 1)] 1 1 0 [(0, [4])] ⟨0, [1], some [2]⟩ =
      ({ id := 0,
         data := List.zipWith (fun pi di => pi + -(1 * di)) [1]
           (List.zipWith (fun b x => 1 * b + (1 - 0) * x) [4]
             (List.zipWith (fun gi pi => gi + 1 * sign pi) [2] [1])),
         grad := some (List.zipWith (fun gi pi => gi + 1 * sign pi) [2] [1]) },
       assocSet [(0, [4])] 0 (List.zipWith (fun b x => 1 * b + (1 - 0) * x) [4]
         (List.zipWith (fun gi pi => gi + 1 * sign pi) [2] [1])), none) :=
  ⟨(sgdl1_momentum_buffer_update [(Key.lr, 1)] 1 1 0 1 [] ⟨0, [1], some [2]⟩ [2]
      (by norm_num) rfl rfl).1 rfl,
   (sgdl1_momentum_buffer_update [(Key.lr, 1)] 1 1 0 1 [(0, [4])] ⟨0, [1], some [2]⟩ [2]
      (by norm_num) rfl rfl).2 [4] rfl⟩

/-- C5: a `SGDl1.step` update with `momentum = 0` is exactly
`param := param - lr * (grad + lambda * sign(param))`, with `sign 0 = 0`
(the in-place write of the effective gradient into the gradient tensor is also
part of the result, see the C7 theorems). -/
theorem sgdl1_momentum_zero_update (hyper : Hypers) (lam damp lr : ℚ) (stM : StateMap)
    (p : Param (List ℚ)) (g : List ℚ) (hg : p.grad = some g)
    (hlr : dictGet hyper Key.lr = some lr) :
    SGDl1paramRun hyper lam 0 damp stM p =
      ({ p with grad := some (List.zipWith (fun gi pi => gi + lam * sign pi) g p.data),
                data := List.zipWith (fun pi gi => pi - lr * (gi + lam * sign pi)) p.data g },
       stM, none) ∧ sign 0 = 0 := by
  constructor
  · have h2 : List.zipWith (fun pi di => pi + -(lr * di)) p.data
        (List.zipWith (fun gi pi => gi + lam * sign pi) g p.data) =
        List.zipWith (fun pi gi => pi - lr * (gi + lam * sign pi)) p.data g := by
      rw [zipWith_comp_right]
      exact zipWith_ext _ _ (fun a b => by ring) _ _
    simp [SGDl1paramRun, hg, hlr, h2]
  · rfl

theorem sgdl1_momentum_zero_update_witness :
    SGDl1paramRun [(Key.lr, 2)] 3 0 0 [] ⟨1, [1, 0], some [5, 5]⟩ =
      ({ id := 1,
         data := List.zipWith (fun pi gi => pi - 2 * (gi + 3 * sign pi)) [1, 0] [5, 5],
         grad := some (List.zipWith (fun gi pi => gi + 3 * sign pi) [5, 5] [1, 0]) },
       [], none) ∧ sign 0 = 0 :=
  sgdl1_momentum_zero_update [(Key.lr, 2)] 3 0 2 [] ⟨1, [1, 0], some [5, 5]⟩ [5, 5] rfl rfl

/-- C6: each of the three constructors asserts positivity of its penalty or
radius before calling the base constructor, so a non-positive `lambda_l1` or
`kappa_l1` fails with an `AssertionError` for every parameter collection,
before any parameter is read or modified and before any step can run. -/
theorem optimizers_reject_nonpositive_hyper (groups : List (ParamGroup (List ℚ)))
    (groupsN : List (ParamGroup QMat)) (lr lam kap1 kap2 : ℚ) :
    (lam ≤ 0 → SGDl1init groups lr lam = Except.error "AssertionError") ∧
    (kap1 ≤ 0 → SGDFWl1init groups kap1 = Except.error "AssertionError") ∧
    (kap2 ≤ 0 → SGDFWNuclearInit groupsN kap2 = Except.error "AssertionError") := by
  refine ⟨fun h => ?_, fun h => ?_, fun h => ?_⟩
  · simp only [SGDl1init, if_neg (not_lt.mpr h)]
  · simp only [SGDFWl1init, if_neg (not_lt.mpr h)]
  · simp only [SGDFWNuclearInit, if_neg (not_lt.mpr h)]

theorem optimizers_reject_nonpositive_hyper_witness :
    SGDl1init [] 1 0 = Except.error "AssertionError" ∧
    SGDFWl1init [] (-1) = Except.error "AssertionError" ∧
    SGDFWNuclearInit [] 0 = Except.error "AssertionError" :=
  ⟨(optimizers_reject_nonpositive_hyper [] [] 1 0 (-1) 0).1 le_rfl,
   (optimizers_reject_nonpositive_hyper [] [] 1 0 (-1) 0).2.1 (by norm_num),
   (optimizers_reject_nonpositive_hyper [] [] 1 0 (-1) 0).2.2 le_rfl⟩

/-- C7 counterexample: the claim says no optimizer step modifies a gradient,
but `SGDl1.step` executes `d_p = p.grad.data; d_p.add_(lam, torch.sign(p.data))`,
an in-place write through an alias of the gradient tensor: on a state with
`lambda = 1`, parameter `[1]` and gradient `[1]`, the gradient after the call
is `[2]`. -/
theorem sgdl1_step_mutates_gradient :
    gradsOf (SGDl1stepCore sgdMutState).1.param_groups ≠ gradsOf sgdMutState.param_groups := by
  have h1 : dictGet sgdMutHyper Key.l1 = some 1 := rfl
  have h2 : dictGet sgdMutHyper Key.momentum = some 0 := rfl
  have h3 : dictGet sgdMutHyper Key.dampening = some 0 := rfl
  have h4 : dictGet sgdMutHyper Key.lr = some 1 := rfl
  have hL : gradsOf (SGDl1stepCore sgdMutState).1.param_groups = [[some [2]]] := by
    norm_num [gradsOf, SGDl1stepCore, SGDl1groupsRun, SGDl1groupRun, SGDl1paramsRun,
      SGDl1paramRun, sgdMutState, h1, h2, h3, h4, sign]
  have hR : gradsOf sgdMutState.param_groups = [[some [1]]] := by
    norm_num [gradsOf, sgdMutState]
  rw [hL, hR]
  norm_num

/-- C7 amended: the two Frank-Wolfe steps indeed never modify any gradient
(for the nuclear variant, whatever the oracle does), but `SGDl1.step` mutates
each present gradient in place: after the call the stored gradient equals
`entry_gradient + lambda * sign(entry_parameter)`. -/
theorem gradients_frame_condition :
    (∀ st : FWState (List ℚ),
      gradsOf (SGDFWl1stepCore st).1.param_groups = gradsOf st.param_groups) ∧
    (∀ (lmo : QMat → ℚ → QMat) (st : FWState QMat),
      gradsOf (SGDFWNuclearStepCore lmo st).1.param_groups = gradsOf st.param_groups) ∧
    (∀ (hyper : Hypers) (lam mom damp : ℚ) (stM : StateMap) (p : Param (List ℚ)) (g : List ℚ),
      p.grad = some g →
      ((SGDl1paramRun hyper lam mom damp stM p).1).grad =
        some (List.zipWith (fun gi pi => gi + lam * sign pi) g p.data)) := by
  refine ⟨fun st => ?_, fun lmo st => ?_, SGDl1paramRun_grad⟩
  · rcases hr : FWl1groupsRun st.k st.param_groups with ⟨gs', e⟩
    have hpres := FWl1groupsRun_grads st.k st.param_groups
    rw [hr] at hpres
    simp only at hpres
    simp [SGDFWl1stepCore, hr, hpres]
  · rcases hr : FWnucGroupsRun lmo st.k st.param_groups with ⟨gs', e⟩
    have hpres := FWnucGroupsRun_grads lmo st.k st.param_groups
    rw [hr] at hpres
    simp only at hpres
    simp [SGDFWNuclearStepCore, hr, hpres]

theorem gradients_frame_condition_witness :
    ((SGDl1paramRun [] 1 0 0 [] ⟨0, [1], some [1]⟩).1).grad =
      some (List.zipWith (fun gi pi => gi + 1 * sign pi) [1] [1]) :=
  gradients_frame_condition.2.2 [] 1 0 0 [] ⟨0, [1], some [1]⟩ [1] rfl

/-- C8: in every optimizer's step loop, a parameter whose gradient is absent
is skipped without raising: it is returned unchanged, the optimizer state
gains no buffer for it, and no error is produced; consequently a full
`SGDl1.step` over a state in which every gradient is absent returns the state
unchanged. -/
theorem absent_gradient_skipped :
    (∀ (hyper : Hypers) (lam mom damp : ℚ) (stM : StateMap) (p : Param (List ℚ)),
      p.grad = none → SGDl1paramRun hyper lam mom damp stM p = (p, stM, none)) ∧
    (∀ (k : ℕ) (kappa : ℚ) (p : Param (List ℚ)),
      p.grad = none → FWl1paramStep k kappa p = p) ∧
    (∀ (lmo : QMat → ℚ → QMat) (k : ℕ) (kappa : ℚ) (p : Param QMat),
      p.grad = none → FWnucParamStep lmo k kappa p = p) ∧
    (∀ st : SGDl1State,
      (∀ g ∈ st.param_groups, ∀ p ∈ g.params, p.grad = none) → (SGDl1stepCore st).1 = st) := by
  refine ⟨SGDl1paramRun_absent, ?_, ?_, ?_⟩
  · intro k kappa p h
    simp [FWl1paramStep, h]
  · intro lmo k kappa p h
    simp [FWnucParamStep, h]
  · intro st h
    obtain ⟨pgs, sm⟩ := st
    have hid := SGDl1groupsRun_absent pgs sm h
    rcases hr : SGDl1groupsRun pgs sm with ⟨gs', sm', e⟩
    rw [hr] at hid
    obtain ⟨hh1, hh2⟩ := hid
    simp only at hh1 hh2
    simp [SGDl1stepCore, hr, hh1, hh2]

theorem absent_gradient_skipped_witness :
    SGDl1paramRun [] 1 1 0 [] ⟨5, [2], none⟩ = (⟨5, [2], none⟩, [], none) ∧
    FWl1paramStep 0 1 ⟨5, [2], none⟩ = ⟨5, [2], none⟩ ∧
    FWnucParamStep (fun g _ => g) 0 1 ⟨7, [[2]], none⟩ = ⟨7, [[2]], none⟩ ∧
    (SGDl1stepCore { param_groups := [{ params := [⟨3, [1], none⟩], hyper := [] }],
                     stateMap := [] }).1 =
      { param_groups := [{ params := [⟨3, [1], none⟩], hyper := [] }], stateMap := [] } :=
  ⟨absent_gradient_skipped.1 [] 1 1 0 [] ⟨5, [2], none⟩ rfl,
   absent_gradient_skipped.2.1 0 1 ⟨5, [2], none⟩ rfl,
   absent_gradient_skipped.2.2.1 (fun g _ => g) 0 1 ⟨7, [[2]], none⟩ rfl,
   absent_gradient_skipped.2.2.2 _ (by simp)⟩

/-- C9: each step entry point invokes a supplied closure exactly once, before
the group loop (the loop runs on the state the closure leaves behind), and
passes the closure's value through as the returned loss; with no closure the
returned loss is `none` and the rest of the call is unaffected. -/
theorem closure_called_once_loss_passthrough :
    (∀ (σ : Type) (f : σ → SGDl1State → ℚ × σ × SGDl1State) (cs : σ) (st : SGDl1State),
      SGDl1step (some f) cs st =
        (some (f cs st).1, (f cs st).2.1, SGDl1stepCore (f cs st).2.2)) ∧
    (∀ (σ : Type) (cs : σ) (st : SGDl1State),
      SGDl1step (none : Option (σ → SGDl1State → ℚ × σ × SGDl1State)) cs st =
        (none, cs, SGDl1stepCore st)) ∧
    (∀ (σ : Type) (f : σ → FWState (List ℚ) → ℚ × σ × FWState (List ℚ)) (cs : σ)
        (st : FWState (List ℚ)),
      SGDFWl1step (some f) cs st =
        (some (f cs st).1, (f cs st).2.1, SGDFWl1stepCore (f cs st).2.2)) ∧
    (∀ (σ : Type) (cs : σ) (st : FWState (List ℚ)),
      SGDFWl1step (none : Option (σ → FWState (List ℚ) → ℚ × σ × FWState (List ℚ))) cs st =
        (none, cs, SGDFWl1stepCore st)) ∧
    (∀ (lmo : QMat → ℚ → QMat) (σ : Type) (f : σ → FWState QMat → ℚ × σ × FWState QMat)
        (cs : σ) (st : FWState QMat),
      SGDFWNuclearStep lmo (some f) cs st =
        (some (f cs st).1, (f cs st).2.1, SGDFWNuclearStepCore lmo (f cs st).2.2)) ∧
    (∀ (lmo : QMat → ℚ → QMat) (σ : Type) (cs : σ) (st : FWState QMat),
      SGDFWNuclearStep lmo (none : Option (σ → FWState QMat → ℚ × σ × FWState QMat)) cs st =
        (none, cs, SGDFWNuclearStepCore lmo st)) :=
  ⟨fun _ _ _ _ => rfl, fun _ _ _ => rfl, fun _ _ _ _ => rfl, fun _ _ _ => rfl,
   fun _ _ _ _ _ => rfl, fun _ _ _ _ => rfl⟩

/-- C10: `SGDFWNuclear.__init__` runs `super(Optimizer, self).__init__(params,
defaults)`, which resolves past `Optimizer` to `object` and calls
`object.__init__` with two extra positional arguments — a `TypeError` for
every parameter collection and every positive radius, so `param_groups` is
never established and no usable instance is ever produced. -/
theorem sgdfwnuclear_construction_always_fails (groups : List (ParamGroup QMat)) (kappa : ℚ)
    (h : 0 < kappa) :
    SGDFWNuclearInit groups kappa =
      Except.error "TypeError: object.__init__() takes exactly one argument" := by
  unfold SGDFWNuclearInit
  rw [if_pos h]
  rfl

theorem sgdfwnuclear_construction_always_fails_witness :
    SGDFWNuclearInit [] 1 =
      Except.error "TypeError: object.__init__() takes exactly one argument" :=
  sgdfwnuclear_construction_always_fails [] 1 (by norm_num)
